import Mathlib

/-!
Verification of the `jsonl` crate: a JSON Lines message-framing codec.

The embedding models:
* `serde_json::Value` as `Json` (numbers restricted to integers; floating
  point is outside the shallow embedding),
* `serde_json::to_string` / `from_str` as an executable printer and a fuelled
  recursive-descent parser,
* sources and sinks as explicit state (`Source`, `Sink`), with `read_line`,
  `write_all` and `flush` as state-passing functions that can fail,
* `Connection::recv_message`, `Connection::send_message` (src/lib.rs) and
  `Connection::flush` (src/connection.rs) over that state.
-/

set_option maxHeartbeats 1000000
set_option linter.unnecessarySeqFocus false
set_option linter.unusedVariables false

namespace Jsonl

/-- JSON values, modelling `serde_json::Value`. Numbers are restricted to
integers: floating-point payloads are outside the shallow embedding. -/
inductive Json where
  | Null : Json
  | Boolean : Bool → Json
  | Num : Int → Json
  | Str : String → Json
  | Arr : List Json → Json
  | Obj : List (String × Json) → Json

/-! ### The printer (`serde_json::to_string`, compact form) -/

/-- Lower-case hexadecimal digit, as `serde_json`'s `\u00xx` escapes use. -/
def nibbleChar (n : Nat) : Char :=
  if n < 10 then Char.ofNat (48 + n) else Char.ofNat (87 + n)

/-- The six-character `\u00xx` escape of a control character's code point. -/
def controlEscape (t : Nat) : List Char :=
  '\\' :: 'u' :: '0' :: '0' :: nibbleChar (t / 16) :: [nibbleChar (t % 16)]

/-- JSON string escaping of one character, following `serde_json`: `"` and
`\` get a backslash, the control characters BS HT LF FF CR get their short
escapes, every other control character becomes `\u00xx`, and all remaining
characters are emitted raw. -/
def escapeChar (c : Char) : List Char :=
  if c = '"' then ['\\', '"']
  else if c = '\\' then ['\\', '\\']
  else if c.toNat = 8 then ['\\', 'b']
  else if c.toNat = 9 then ['\\', 't']
  else if c.toNat = 10 then ['\\', 'n']
  else if c.toNat = 12 then ['\\', 'f']
  else if c.toNat = 13 then ['\\', 'r']
  else if c.toNat < 32 then controlEscape c.toNat
  else [c]

/-- The decimal digits of `n`, most significant first. -/
def natDigits (n : Nat) : List Char :=
  if h : n < 10 then [Char.ofNat (48 + n)]
  else natDigits (n / 10) ++ [Char.ofNat (48 + n % 10)]
termination_by n
decreasing_by exact Nat.div_lt_self (by omega) (by omega)

/-- An integer as JSON text: optional minus sign, then decimal digits. -/
def printInt (n : Int) : List Char :=
  if n < 0 then '-' :: natDigits (-n).toNat else natDigits n.toNat

/-- A JSON string literal: quoted, with every character escaped as needed. -/
def printString (s : String) : List Char :=
  '"' :: s.data.flatMap escapeChar ++ ['"']

mutual
/-- Compact printing of a JSON value, as `serde_json::to_string` produces:
no whitespace, `,` between items, `:` after keys. -/
def printJson : Json → List Char
  | .Null => ['n', 'u', 'l', 'l']
  | .Boolean true => ['t', 'r', 'u', 'e']
  | .Boolean false => ['f', 'a', 'l', 's', 'e']
  | .Num n => printInt n
  | .Str s => printString s
  | .Arr es => '[' :: printElems es ++ [']']
  | .Obj ms => '{' :: printMembers ms ++ ['}']
/-- Comma-separated rendering of array elements. -/
def printElems : List Json → List Char
  | [] => []
  | [e] => printJson e
  | e :: es => printJson e ++ ',' :: printElems es
/-- Comma-separated rendering of object members. -/
def printMembers : List (String × Json) → List Char
  | [] => []
  | [(k, v)] => printString k ++ ':' :: printJson v
  | (k, v) :: ms => printString k ++ ':' :: printJson v ++ ',' :: printMembers ms
end

/-- Model of `serde_json::to_string` on a `Value`; total on this value model. -/
def to_string (v : Json) : String := ⟨printJson v⟩

/-! ### The parser (`serde_json::from_str`) -/

mutual
/-- Node count of a value; bounds the fuel the parser needs for it. -/
def sizeJ : Json → Nat
  | .Arr es => sizeElems es + 1
  | .Obj ms => sizeMembers ms + 1
  | _ => 1
/-- Summed node count of array elements. -/
def sizeElems : List Json → Nat
  | [] => 0
  | e :: es => sizeJ e + sizeElems es + 1
/-- Summed node count of object member values. -/
def sizeMembers : List (String × Json) → Nat
  | [] => 0
  | m :: ms => sizeJ m.2 + sizeMembers ms + 1
end

/-- JSON whitespace, which `serde_json` skips between tokens. -/
def isJsonWs (c : Char) : Bool :=
  c = ' ' || c = '\t' || c = '\n' || c = '\r'

/-- Drop leading JSON whitespace. -/
def skipWs : List Char → List Char
  | [] => []
  | c :: cs => if isJsonWs c then skipWs cs else c :: cs

/-- Numeric value of one hexadecimal digit, either case. -/
def hexVal (c : Char) : Option Nat :=
  if 48 ≤ c.toNat ∧ c.toNat ≤ 57 then some (c.toNat - 48)
  else if 97 ≤ c.toNat ∧ c.toNat ≤ 102 then some (c.toNat - 87)
  else if 65 ≤ c.toNat ∧ c.toNat ≤ 70 then some (c.toNat - 55)
  else none

/-- Decode one escape sequence; the input starts just after the backslash.
`\uXXXX` escapes denoting surrogate halves are rejected; combining two
surrogate escapes into one code point is not modelled. -/
def parseEscape : List Char → Option (Char × List Char)
  | [] => none
  | e :: rest =>
    if e = '"' then some ('"', rest)
    else if e = '\\' then some ('\\', rest)
    else if e = '/' then some ('/', rest)
    else if e = 'b' then some (Char.ofNat 8, rest)
    else if e = 'f' then some (Char.ofNat 12, rest)
    else if e = 'n' then some (Char.ofNat 10, rest)
    else if e = 'r' then some (Char.ofNat 13, rest)
    else if e = 't' then some (Char.ofNat 9, rest)
    else if e = 'u' then
      match rest with
      | h1 :: h2 :: h3 :: h4 :: rest2 =>
        match hexVal h1, hexVal h2, hexVal h3, hexVal h4 with
        | some a, some b, some c, some d =>
          let n := ((a * 16 + b) * 16 + c) * 16 + d
          if n < 55296 ∨ 57344 ≤ n then some (Char.ofNat n, rest2) else none
        | _, _, _, _ => none
      | _ => none
    else none

/-- The body of a JSON string literal, after the opening quote, through the
closing quote; fuelled (one unit per decoded character). Raw control
characters are rejected, as in `serde_json`. -/
def parseStringBody : Nat → List Char → Option (List Char × List Char)
  | 0, _ => none
  | _ + 1, [] => none
  | fuel + 1, c :: rest =>
    if c = '"' then some ([], rest)
    else if c = '\\' then
      match parseEscape rest with
      | some (ch, r) =>
        match parseStringBody fuel r with
        | some (content, rem) => some (ch :: content, rem)
        | none => none
      | none => none
    else if c.toNat < 32 then none
    else
      match parseStringBody fuel rest with
      | some (content, rem) => some (c :: content, rem)
      | none => none

/-- Consume a maximal run of decimal digits, accumulating their value. -/
def parseDigits : Nat → List Char → Nat × List Char
  | acc, [] => (acc, [])
  | acc, c :: rest =>
    if 48 ≤ c.toNat ∧ c.toNat ≤ 57 then parseDigits (acc * 10 + (c.toNat - 48)) rest
    else (acc, c :: rest)

/-- The digit part of a JSON number, with the leading-zero rule: a number
whose first digit is `0` has no further digits. -/
def parseNumBody : List Char → Option (Nat × List Char)
  | [] => none
  | c :: rest =>
    if c = '0' then some (0, rest)
    else if 48 ≤ c.toNat ∧ c.toNat ≤ 57 then some (parseDigits 0 (c :: rest))
    else none

mutual
/-- One JSON value, fuelled; mirrors `serde_json`'s recursive descent.
Number fractions and exponents are outside the integer-number model. -/
def parseValue : Nat → List Char → Option (Json × List Char)
  | 0, _ => none
  | fuel + 1, cs =>
    match skipWs cs with
    | [] => none
    | c :: rest =>
      if c = 'n' then
        match rest with
        | 'u' :: 'l' :: 'l' :: r => some (.Null, r)
        | _ => none
      else if c = 't' then
        match rest with
        | 'r' :: 'u' :: 'e' :: r => some (.Boolean true, r)
        | _ => none
      else if c = 'f' then
        match rest with
        | 'a' :: 'l' :: 's' :: 'e' :: r => some (.Boolean false, r)
        | _ => none
      else if c = '"' then
        match parseStringBody (rest.length + 1) rest with
        | some (content, r) => some (.Str ⟨content⟩, r)
        | none => none
      else if c = '-' then
        match parseNumBody rest with
        | some (n, r) => some (.Num (-(n : Int)), r)
        | none => none
      else if 48 ≤ c.toNat ∧ c.toNat ≤ 57 then
        match parseNumBody (c :: rest) with
        | some (n, r) => some (.Num (n : Int), r)
        | none => none
      else if c = '[' then
        match skipWs rest with
        | [] => none
        | c2 :: r2 =>
          if c2 = ']' then some (.Arr [], r2)
          else
            match parseElems fuel rest with
            | some (es, r) => some (.Arr es, r)
            | none => none
      else if c = '{' then
        match skipWs rest with
        | [] => none
        | c2 :: r2 =>
          if c2 = '}' then some (.Obj [], r2)
          else
            match parseMembers fuel rest with
            | some (ms, r) => some (.Obj ms, r)
            | none => none
      else none
/-- One or more comma-separated array elements, through the closing `]`. -/
def parseElems : Nat → List Char → Option (List Json × List Char)
  | 0, _ => none
  | fuel + 1, cs =>
    match parseValue fuel cs with
    | some (v, r) =>
      match skipWs r with
      | ',' :: r2 =>
        match parseElems fuel r2 with
        | some (es, r3) => some (v :: es, r3)
        | none => none
      | ']' :: r2 => some ([v], r2)
      | _ => none
    | none => none
/-- One or more `"key":value` object members, through the closing `}`. -/
def parseMembers : Nat → List Char → Option (List (String × Json) × List Char)
  | 0, _ => none
  | fuel + 1, cs =>
    match skipWs cs with
    | '"' :: cs1 =>
      match parseStringBody (cs1.length + 1) cs1 with
      | some (key, cs2) =>
        match skipWs cs2 with
        | ':' :: cs3 =>
          match parseValue fuel cs3 with
          | some (v, cs4) =>
            match skipWs cs4 with
            | ',' :: cs5 =>
              match parseMembers fuel cs5 with
              | some (ms, r) => some ((⟨key⟩, v) :: ms, r)
              | none => none
            | '}' :: cs5 => some ([(⟨key⟩, v)], cs5)
            | _ => none
          | none => none
        | _ => none
      | none => none
    | _ => none
end

/-- Model of `serde_json::from_str::<Value>`: parse one JSON document, requiring only
whitespace after it. `none` stands for a `serde_json::Error`. -/
def from_str (s : String) : Option Json :=
  match parseValue (s.data.length + 1) s.data with
  | some (v, rest) => if (skipWs rest).isEmpty then some v else none
  | none => none

/-! ### Sources, sinks, and the `Connection` (src/lib.rs, src/connection.rs) -/

/-- Model of `std::io::Error`, opaque. -/
inductive IOError where
  | mk

/-- Model of `serde_json::Error`, opaque. -/
inductive JsonError where
  | mk

/-- Model of `jsonl::RecvError` (src/errors.rs:4-10): read failure vs. JSON
deserialization failure. -/
inductive RecvError where
  | Read (e : IOError)
  | Deserialize (e : JsonError)

/-- Model of `jsonl::SendError` (src/errors.rs:13-19): write failure vs. JSON
serialization failure. -/
inductive SendError where
  | Write (e : IOError)
  | Serialize (e : JsonError)

/-- A buffered source: the characters still to be read, plus a flag saying
whether the next underlying read fails with an I/O error. -/
structure Source where
  data : List Char
  readErr : Bool

/-- One observable operation performed on a sink. -/
inductive SinkOp where
  | write (s : List Char)
  | flush

/-- A sink: the log of operations performed on it so far, plus the failure
outcomes of the operations still to come (`true` = that operation fails). -/
structure Sink where
  log : List SinkOp
  failMask : List Bool

/-- Whether the sink's next operation fails. -/
def Sink.nextFails (sk : Sink) : Bool := sk.failMask.headD false

/-- Model of `std::io::Write::write_all` on the sink state: log the write, or fail
having written nothing. -/
def write_all (sk : Sink) (s : List Char) : Sink × Except IOError Unit :=
  if sk.nextFails then ({ sk with failMask := sk.failMask.tail }, .error .mk)
  else ({ log := sk.log ++ [.write s], failMask := sk.failMask.tail }, .ok ())

/-- Model of `std::io::Write::flush` on the sink state: log the flush, or fail. -/
def Sink.flush (sk : Sink) : Sink × Except IOError Unit :=
  if sk.nextFails then ({ sk with failMask := sk.failMask.tail }, .error .mk)
  else ({ log := sk.log ++ [.flush], failMask := sk.failMask.tail }, .ok ())

/-- The characters a sink has accepted so far, in order. -/
def Sink.written (sk : Sink) : List Char :=
  sk.log.flatMap fun op => match op with | .write s => s | .flush => []

/-- Split off one line: everything up to and including the first newline, or
the whole input when it has none. -/
def splitLine : List Char → List Char × List Char
  | [] => ([], [])
  | c :: cs =>
    if c = '\n' then ([c], cs)
    else
      let (l, r) := splitLine cs
      (c :: l, r)

/-- Model of `std::io::BufRead::read_line`: one line into the buffer, or an I/O error.
At end of stream it reads an empty buffer (Rust's `Ok(0)`). -/
def read_line (src : Source) : Source × Except IOError (List Char) :=
  if src.readErr then (src, .error .mk)
  else
    let (line, rest) := splitLine src.data
    (⟨rest, false⟩, .ok line)

/-- Model of `jsonl::Connection` (src/lib.rs:8-11): a source paired with a sink. -/
structure Connection where
  source : Source
  sink : Sink

/-- Model of `Connection::recv_message` (src/lib.rs:46-52): `read_line` one line, then
deserialize it. `dec` embeds `serde_json::from_str::<T>`; the returned
`Connection` models the state behind `&mut self`. -/
def recv_message (dec : String → Option α) (c : Connection) :
    Connection × Except RecvError α :=
  let (src, r) := read_line c.source
  let c1 : Connection := { c with source := src }
  match r with
  | .error e => (c1, .error (.Read e))
  | .ok buf =>
    match dec ⟨buf⟩ with
    | some v => (c1, .ok v)
    | none => (c1, .error (.Deserialize .mk))

/-- Model of `Connection::send_message` (src/lib.rs:54-67): serialize, `write_all` the
JSON text, then `write_all` the newline. `enc` embeds
`serde_json::to_string::<T>`, with `none` as serialization failure. -/
def send_message (enc : α → Option String) (c : Connection) (t : α) :
    Connection × Except SendError Unit :=
  match enc t with
  | none => (c, .error (.Serialize .mk))
  | some json =>
    let (sk1, r1) := write_all c.sink json.data
    match r1 with
    | .error e => ({ c with sink := sk1 }, .error (.Write e))
    | .ok _ =>
      let (sk2, r2) := write_all sk1 ['\n']
      match r2 with
      | .error e => ({ c with sink := sk2 }, .error (.Write e))
      | .ok _ => ({ c with sink := sk2 }, .ok ())

/-- Model of `Connection::flush` (src/connection.rs:104-107): delegate to the sink's
own flush. -/
def Connection.flush (c : Connection) : Connection × Except IOError Unit :=
  let (sk, r) := Sink.flush c.sink
  ({ c with sink := sk }, r)

/-- The `Value` instantiation of the serializer (`serde_json::to_string` on
this value model always succeeds). -/
def encJson (v : Json) : Option String := some (to_string v)

/-- The `Value` instantiation of the deserializer. -/
def decJson (s : String) : Option Json := from_str s

/-! ### Character and whitespace lemmas -/

/-- Distinct code points give distinct characters. -/
theorem char_ne_of_toNat_ne {a b : Char} (h : a.toNat ≠ b.toNat) : a ≠ b :=
  fun e => h (by rw [e])

/-- A character whose code point is none of SP HT LF CR is not whitespace. -/
theorem isJsonWs_eq_false_of_toNat {c : Char} (h32 : c.toNat ≠ 32) (h9 : c.toNat ≠ 9)
    (h10 : c.toNat ≠ 10) (h13 : c.toNat ≠ 13) : isJsonWs c = false := by
  simp only [isJsonWs, Bool.or_eq_false_iff, decide_eq_false_iff_not]
  refine ⟨⟨⟨fun e => ?_, fun e => ?_⟩, fun e => ?_⟩, fun e => ?_⟩ <;> subst e
  · exact h32 (by decide)
  · exact h9 (by decide)
  · exact h10 (by decide)
  · exact h13 (by decide)

/-- Dropping whitespace keeps a non-whitespace head unchanged. -/
theorem skipWs_cons_of_not_ws {c : Char} (cs : List Char) (h : isJsonWs c = false) :
    skipWs (c :: cs) = c :: cs := by
  simp [skipWs, h]

/-! ### Decimal digits: printing and parsing are inverse -/

/-- Digit characters carry their code point. -/
theorem digitChar_toNat : ∀ k, k < 10 → (Char.ofNat (48 + k)).toNat = 48 + k := by decide

/-- Every character `natDigits` emits is a decimal digit. -/
theorem natDigits_digits (n : Nat) : ∀ c ∈ natDigits n, 48 ≤ c.toNat ∧ c.toNat ≤ 57 := by
  induction n using Nat.strong_induction_on with
  | _ n ih =>
    rw [natDigits]
    by_cases h : n < 10
    · simp only [dif_pos h, List.mem_singleton]
      rintro c rfl
      rw [digitChar_toNat n h]
      omega
    · simp only [dif_neg h]
      intro c hc
      rcases List.mem_append.mp hc with hc | hc
      · exact ih (n / 10) (Nat.div_lt_self (by omega) (by omega)) c hc
      · rw [List.mem_singleton] at hc
        subst hc
        rw [digitChar_toNat _ (Nat.mod_lt _ (by omega))]
        have h2 : n % 10 < 10 := Nat.mod_lt n (by omega)
        omega

/-- The function `natDigits` starts with a digit, nonzero when `n` is positive. -/
theorem natDigits_head (n : Nat) :
    ∃ c t, natDigits n = c :: t ∧ 48 ≤ c.toNat ∧ c.toNat ≤ 57 ∧ (0 < n → 49 ≤ c.toNat) := by
  induction n using Nat.strong_induction_on with
  | _ n ih =>
    rw [natDigits]
    by_cases h : n < 10
    · refine ⟨Char.ofNat (48 + n), [], by simp [h], ?_, ?_, ?_⟩
      · rw [digitChar_toNat n h]; omega
      · rw [digitChar_toNat n h]; omega
      · intro hp; rw [digitChar_toNat n h]; omega
    · obtain ⟨c, t, hct, hlo, hhi, hpos⟩ := ih (n / 10) (Nat.div_lt_self (by omega) (by omega))
      refine ⟨c, t ++ [Char.ofNat (48 + n % 10)], ?_, hlo, hhi, fun _ => ?_⟩
      · simp [dif_neg h, hct]
      · exact hpos (by omega)

/-- Holds iff the input cannot extend a run of decimal digits. -/
def noDigitHead : List Char → Bool
  | [] => true
  | c :: _ => decide (c.toNat < 48 ∨ 57 < c.toNat)

/-- The digit scanner stops immediately on a non-digit head. -/
theorem parseDigits_stop (acc : Nat) {cs : List Char} (h : noDigitHead cs = true) :
    parseDigits acc cs = (acc, cs) := by
  cases cs with
  | nil => rfl
  | cons c rest =>
    simp only [noDigitHead, decide_eq_true_eq] at h
    rw [parseDigits, if_neg (by omega)]

/-- The digit scanner consumes a printed digit run whole, scaling the accumulator. -/
theorem parseDigits_natDigits (n : Nat) : ∀ acc rest,
    parseDigits acc (natDigits n ++ rest)
      = parseDigits (acc * 10 ^ (natDigits n).length + n) rest := by
  induction n using Nat.strong_induction_on with
  | _ n ih =>
    intro acc rest
    conv_lhs => rw [natDigits]
    conv_rhs => rw [natDigits]
    by_cases h : n < 10
    · simp only [dif_pos h, List.singleton_append, List.length_singleton]
      rw [parseDigits,
        if_pos ⟨by rw [digitChar_toNat n h]; omega, by rw [digitChar_toNat n h]; omega⟩,
        digitChar_toNat n h, pow_one]
      congr 1
      omega
    · simp only [dif_neg h, List.append_assoc, List.singleton_append, List.length_append,
        List.length_cons, List.length_nil]
      rw [ih (n / 10) (Nat.div_lt_self (by omega) (by omega)), parseDigits,
        if_pos ⟨by rw [digitChar_toNat _ (Nat.mod_lt _ (by omega))]; omega,
          by rw [digitChar_toNat _ (Nat.mod_lt _ (by omega))]; omega⟩,
        digitChar_toNat _ (Nat.mod_lt _ (by omega))]
      congr 1
      rw [pow_succ, ← mul_assoc]
      generalize acc * 10 ^ (natDigits (n / 10)).length = B
      omega

/-- The number-body parser inverts `natDigits` at any non-digit remainder,
including via the leading-zero branch when `n = 0`. -/
theorem parseNumBody_natDigits (n : Nat) {rest : List Char} (h : noDigitHead rest = true) :
    parseNumBody (natDigits n ++ rest) = some (n, rest) := by
  match n with
  | 0 =>
    have h0 : natDigits 0 = ['0'] := by rw [natDigits]; simp
    rw [h0, List.singleton_append, parseNumBody, if_pos rfl]
  | m + 1 =>
    obtain ⟨c, t, hct, hlo, hhi, hpos⟩ := natDigits_head (m + 1)
    have h49 := hpos (by omega)
    rw [hct, List.cons_append, parseNumBody,
      if_neg (char_ne_of_toNat_ne (show c.toNat ≠ ('0').toNat by
        have : ('0').toNat = 48 := by decide
        omega)),
      if_pos ⟨by omega, hhi⟩, ← List.cons_append, ← hct,
      parseDigits_natDigits, parseDigits_stop _ h]
    simp

/-! ### String escaping: printing and parsing are inverse -/

/-- Hex digit characters round-trip through `hexVal`. -/
theorem hexVal_nibbleChar : ∀ k, k < 16 → hexVal (nibbleChar k) = some k := by decide

/-- Parsing one escaped character recovers it and steps the fuel once. -/
theorem parseStringBody_escape_step (c : Char) (fuel : Nat) (tail : List Char) :
    parseStringBody (fuel + 1) (escapeChar c ++ tail)
      = (parseStringBody fuel tail).map fun p => (c :: p.1, p.2) := by
  by_cases hq : c = '"'
  · subst hq
    cases hrec : parseStringBody fuel tail with
    | none => simp [escapeChar, parseStringBody, parseEscape, hrec]
    | some p => simp [escapeChar, parseStringBody, parseEscape, hrec]
  · by_cases hb : c = '\\'
    · subst hb
      cases hrec : parseStringBody fuel tail with
      | none => simp [escapeChar, parseStringBody, parseEscape, hrec]
      | some p => simp [escapeChar, parseStringBody, parseEscape, hrec]
    · by_cases h8 : c.toNat = 8
      · have hc : Char.ofNat 8 = c := by rw [← h8, Char.ofNat_toNat]
        cases hrec : parseStringBody fuel tail with
        | none => simp [escapeChar, hq, hb, h8, parseStringBody, parseEscape, hrec, hc]
        | some p =>
          simp [escapeChar, hq, hb, h8, parseStringBody, parseEscape, hrec, hc] <;> exact hc
      · by_cases h9 : c.toNat = 9
        · have hc : Char.ofNat 9 = c := by rw [← h9, Char.ofNat_toNat]
          cases hrec : parseStringBody fuel tail with
          | none => simp [escapeChar, hq, hb, h8, h9, parseStringBody, parseEscape, hrec, hc]
          | some p =>
            simp [escapeChar, hq, hb, h8, h9, parseStringBody, parseEscape, hrec, hc] <;>
              exact hc
        · by_cases h10 : c.toNat = 10
          · have hc : Char.ofNat 10 = c := by rw [← h10, Char.ofNat_toNat]
            cases hrec : parseStringBody fuel tail with
            | none =>
              simp [escapeChar, hq, hb, h8, h9, h10, parseStringBody, parseEscape, hrec, hc]
            | some p =>
              simp [escapeChar, hq, hb, h8, h9, h10, parseStringBody, parseEscape, hrec,
                hc] <;> exact hc
          · by_cases h12 : c.toNat = 12
            · have hc : Char.ofNat 12 = c := by rw [← h12, Char.ofNat_toNat]
              cases hrec : parseStringBody fuel tail with
              | none =>
                simp [escapeChar, hq, hb, h8, h9, h10, h12, parseStringBody, parseEscape,
                  hrec, hc]
              | some p =>
                simp [escapeChar, hq, hb, h8, h9, h10, h12, parseStringBody, parseEscape,
                  hrec, hc] <;> exact hc
            · by_cases h13 : c.toNat = 13
              · have hc : Char.ofNat 13 = c := by rw [← h13, Char.ofNat_toNat]
                cases hrec : parseStringBody fuel tail with
                | none =>
                  simp [escapeChar, hq, hb, h8, h9, h10, h12, h13, parseStringBody,
                    parseEscape, hrec, hc]
                | some p =>
                  simp [escapeChar, hq, hb, h8, h9, h10, h12, h13, parseStringBody,
                    parseEscape, hrec, hc] <;> exact hc
              · by_cases hlt : c.toNat < 32
                · have h0 : hexVal '0' = some 0 := by decide
                  have hdiv : hexVal (nibbleChar (c.toNat / 16)) = some (c.toNat / 16) :=
                    hexVal_nibbleChar _ (by omega)
                  have hmod : hexVal (nibbleChar (c.toNat % 16)) = some (c.toNat % 16) :=
                    hexVal_nibbleChar _ (Nat.mod_lt _ (by omega))
                  have hn : ((0 * 16 + 0) * 16 + c.toNat / 16) * 16 + c.toNat % 16
                      = c.toNat := by omega
                  have hn2 : c.toNat / 16 * 16 + c.toNat % 16 = c.toNat := by omega
                  have hvalid : c.toNat < 55296 := by omega
                  cases hrec : parseStringBody fuel tail with
                  | none =>
                    simp [escapeChar, controlEscape, hq, hb, h8, h9, h10, h12, h13, hlt,
                      parseStringBody, parseEscape, h0, hdiv, hmod, hrec, hn, hn2, hvalid,
                      Char.ofNat_toNat]
                  | some p =>
                    simp [escapeChar, controlEscape, hq, hb, h8, h9, h10, h12, h13, hlt,
                      parseStringBody, parseEscape, h0, hdiv, hmod, hrec, hn, hn2, hvalid,
                      Char.ofNat_toNat]
                · cases hrec : parseStringBody fuel tail with
                  | none =>
                    simp [escapeChar, hq, hb, h8, h9, h10, h12, h13, hlt, parseStringBody,
                      hrec]
                  | some p =>
                    simp [escapeChar, hq, hb, h8, h9, h10, h12, h13, hlt, parseStringBody,
                      hrec]

/-- Parsing an escaped run recovers the original characters, stopping at the
closing quote. -/
theorem parseStringBody_flatMap (l : List Char) : ∀ (fuel : Nat) (tail : List Char),
    l.length < fuel →
    parseStringBody fuel (l.flatMap escapeChar ++ '"' :: tail) = some (l, tail) := by
  induction l with
  | nil =>
    intro fuel tail hf
    match fuel, hf with
    | f + 1, _ => simp [parseStringBody]
  | cons c l ih =>
    intro fuel tail hf
    match fuel, hf with
    | f + 1, hf =>
      rw [List.flatMap_cons, List.append_assoc, parseStringBody_escape_step,
        ih f tail (by simp at hf; omega)]
      rfl

/-- Escaping never produces an empty sequence. -/
theorem escapeChar_length_pos (c : Char) : 0 < (escapeChar c).length := by
  unfold escapeChar
  repeat' split
  all_goals simp [controlEscape]

/-- Escaped text is at least as long as the original. -/
theorem length_le_length_flatMap (l : List Char) :
    l.length ≤ (l.flatMap escapeChar).length := by
  induction l with
  | nil => simp
  | cons c l ih =>
    rw [List.flatMap_cons, List.length_append]
    have := escapeChar_length_pos c
    simp only [List.length_cons]
    omega
/-- The string-body parser, at the fuel the value parser supplies (input length
plus one) inverts the escaped rendering. -/
theorem parseStringBody_flatMap_self (l : List Char) (tail : List Char) :
    parseStringBody ((l.flatMap escapeChar ++ '"' :: tail).length + 1)
      (l.flatMap escapeChar ++ '"' :: tail) = some (l, tail) := by
  apply parseStringBody_flatMap
  have h := length_le_length_flatMap l
  simp only [List.length_append, List.length_cons]
  omega


/-! ### Classifying printed head characters -/

/-- Digit code points, as characters, are none of the parser's dispatch or
delimiter characters and are not whitespace (stated over `Char.ofNat` so that
`decide` can check all 58 cases). -/
theorem digit_ofNat_facts : ∀ j, j < 10 →
    isJsonWs (Char.ofNat (48 + j)) = false ∧ Char.ofNat (48 + j) ≠ 'n' ∧
    Char.ofNat (48 + j) ≠ 't' ∧ Char.ofNat (48 + j) ≠ 'f' ∧
    Char.ofNat (48 + j) ≠ '"' ∧ Char.ofNat (48 + j) ≠ '-' ∧
    Char.ofNat (48 + j) ≠ '[' ∧ Char.ofNat (48 + j) ≠ '{' ∧
    Char.ofNat (48 + j) ≠ ']' ∧ Char.ofNat (48 + j) ≠ '}' ∧
    Char.ofNat (48 + j) ≠ ',' ∧ Char.ofNat (48 + j) ≠ ':' := by decide

/-- The same facts for an arbitrary character with a digit code point. -/
theorem digit_char_facts {c : Char} (hlo : 48 ≤ c.toNat) (hhi : c.toNat ≤ 57) :
    isJsonWs c = false ∧ c ≠ 'n' ∧ c ≠ 't' ∧ c ≠ 'f' ∧ c ≠ '"' ∧ c ≠ '-' ∧
    c ≠ '[' ∧ c ≠ '{' ∧ c ≠ ']' ∧ c ≠ '}' ∧ c ≠ ',' ∧ c ≠ ':' := by
  have h := digit_ofNat_facts (c.toNat - 48) (by omega)
  have h48 : 48 + (c.toNat - 48) = c.toNat := by omega
  rw [h48, Char.ofNat_toNat] at h
  exact h

/-! ### The printer never emits a raw newline -/

/-- Hex digit characters are never a newline. -/
theorem nibbleChar_ne_newline : ∀ k, k < 16 → nibbleChar k ≠ '\n' := by decide

/-- Escaping never emits a raw newline: that is the point of escaping. -/
theorem newline_not_mem_escapeChar (c : Char) : '\n' ∉ escapeChar c := by
  unfold escapeChar
  repeat' split
  all_goals first
    | decide
    | (rename_i hlt
       intro hmem
       simp only [controlEscape, List.mem_cons, List.not_mem_nil, or_false] at hmem
       rcases hmem with h | h | h | h | h | h
       · exact absurd h (by decide)
       · exact absurd h (by decide)
       · exact absurd h (by decide)
       · exact absurd h (by decide)
       · exact nibbleChar_ne_newline _ (by omega) h.symm
       · exact nibbleChar_ne_newline _ (Nat.mod_lt _ (by omega)) h.symm)
    | (rename_i hge
       intro hmem
       simp only [List.mem_singleton] at hmem
       rw [← hmem] at hge
       exact hge (by decide))

/-- Digit runs contain no newline. -/
theorem newline_not_mem_natDigits (n : Nat) : '\n' ∉ natDigits n := by
  intro hmem
  have h := natDigits_digits n _ hmem
  have h10 : ('\n').toNat = 10 := by decide
  omega

/-- Printed integers contain no newline. -/
theorem newline_not_mem_printInt (n : Int) : '\n' ∉ printInt n := by
  unfold printInt
  split
  · intro hmem
    rcases List.mem_cons.mp hmem with h | h
    · exact absurd h (by decide)
    · exact newline_not_mem_natDigits _ h
  · exact newline_not_mem_natDigits _

/-- Printed string literals contain no newline. -/
theorem newline_not_mem_printString (s : String) : '\n' ∉ printString s := by
  intro hmem
  unfold printString at hmem
  rcases List.mem_cons.mp hmem with h | h
  · exact absurd h (by decide)
  · rcases List.mem_append.mp h with h | h
    · obtain ⟨a, _, ha⟩ := List.mem_flatMap.mp h
      exact newline_not_mem_escapeChar a ha
    · rw [List.mem_singleton] at h
      exact absurd h (by decide)

mutual
/-- The whole printed form of a value contains no raw newline. -/
theorem newline_not_mem_printJson : ∀ v : Json, '\n' ∉ printJson v
  | .Null => by simp [printJson]
  | .Boolean b => by cases b <;> simp [printJson]
  | .Num n => by
    simp only [printJson]
    exact newline_not_mem_printInt n
  | .Str s => by
    simp only [printJson]
    exact newline_not_mem_printString s
  | .Arr es => by
    simp only [printJson]
    intro hmem
    rcases List.mem_cons.mp hmem with h | h
    · exact absurd h (by decide)
    · rcases List.mem_append.mp h with h | h
      · exact newline_not_mem_printElems es h
      · rw [List.mem_singleton] at h
        exact absurd h (by decide)
  | .Obj ms => by
    simp only [printJson]
    intro hmem
    rcases List.mem_cons.mp hmem with h | h
    · exact absurd h (by decide)
    · rcases List.mem_append.mp h with h | h
      · exact newline_not_mem_printMembers ms h
      · rw [List.mem_singleton] at h
        exact absurd h (by decide)
/-- Printed element lists contain no raw newline. -/
theorem newline_not_mem_printElems : ∀ es : List Json, '\n' ∉ printElems es
  | [] => by simp [printElems]
  | [e] => by
    simp only [printElems]
    exact newline_not_mem_printJson e
  | e :: e2 :: es => by
    simp only [printElems]
    intro hmem
    rcases List.mem_append.mp hmem with h | h
    · exact newline_not_mem_printJson e h
    · rcases List.mem_cons.mp h with h | h
      · exact absurd h (by decide)
      · exact newline_not_mem_printElems (e2 :: es) h
/-- Printed member lists contain no raw newline. -/
theorem newline_not_mem_printMembers : ∀ ms : List (String × Json), '\n' ∉ printMembers ms
  | [] => by simp [printMembers]
  | [(k, v)] => by
    simp only [printMembers]
    intro hmem
    rcases List.mem_append.mp hmem with h | h
    · exact newline_not_mem_printString k h
    · rcases List.mem_cons.mp h with h | h
      · exact absurd h (by decide)
      · exact newline_not_mem_printJson v h
  | (k, v) :: m2 :: ms => by
    simp only [printMembers]
    intro hmem
    rcases List.mem_append.mp hmem with h | h
    · rcases List.mem_append.mp h with h | h
      · exact newline_not_mem_printString k h
      · rcases List.mem_cons.mp h with h | h
        · exact absurd h (by decide)
        · exact newline_not_mem_printJson v h
    · rcases List.mem_cons.mp h with h | h
      · exact absurd h (by decide)
      · exact newline_not_mem_printMembers (m2 :: ms) h
end

/-! ### Printed length bounds the parser fuel -/

/-- Digit runs are nonempty. -/
theorem one_le_length_natDigits (n : Nat) : 1 ≤ (natDigits n).length := by
  obtain ⟨c, t, hct, _, _, _⟩ := natDigits_head n
  rw [hct]
  simp only [List.length_cons]
  omega

mutual
/-- A value has no more nodes than printed characters. -/
theorem sizeJ_le_length : ∀ v : Json, sizeJ v ≤ (printJson v).length
  | .Null => by simp [printJson, sizeJ]
  | .Boolean b => by cases b <;> simp [printJson, sizeJ]
  | .Num n => by
    simp only [printJson, sizeJ]
    unfold printInt
    split
    · have h := one_le_length_natDigits (-n).toNat
      simp only [List.length_cons]
      omega
    · exact one_le_length_natDigits n.toNat
  | .Str s => by
    simp only [printJson, sizeJ, printString, List.cons_append, List.length_cons,
      List.length_append, List.length_singleton]
    omega
  | .Arr es => by
    have h := sizeElems_le_length es
    simp only [printJson, sizeJ, List.length_cons, List.length_append,
      List.length_singleton] at h ⊢
    omega
  | .Obj ms => by
    have h := sizeMembers_le_length ms
    simp only [printJson, sizeJ, List.length_cons, List.length_append,
      List.length_singleton] at h ⊢
    omega
/-- Element lists: node count is within one of the printed length. -/
theorem sizeElems_le_length : ∀ es : List Json, sizeElems es ≤ (printElems es).length + 1
  | [] => by simp [sizeElems, printElems]
  | [e] => by
    have h := sizeJ_le_length e
    simp only [sizeElems, printElems]
    omega
  | e :: e2 :: es => by
    have h1 := sizeJ_le_length e
    have h2 := sizeElems_le_length (e2 :: es)
    simp only [sizeElems, printElems, List.length_append, List.length_cons] at h2 ⊢
    omega
/-- Member lists: node count is within one of the printed length. -/
theorem sizeMembers_le_length :
    ∀ ms : List (String × Json), sizeMembers ms ≤ (printMembers ms).length + 1
  | [] => by simp [sizeMembers, printMembers]
  | [(k, v)] => by
    have h := sizeJ_le_length v
    simp only [sizeMembers, printMembers, List.length_append, List.length_cons]
    omega
  | (k, v) :: m2 :: ms => by
    have h1 := sizeJ_le_length v
    have h2 := sizeMembers_le_length (m2 :: ms)
    simp only [sizeMembers, printMembers, List.length_append, List.length_cons] at h2 ⊢
    omega
end

/-! ### Heads of printed output -/

/-- Every printed value starts with a non-whitespace character that closes
neither an array nor an object. -/
theorem printJson_head (v : Json) :
    ∃ c t, printJson v = c :: t ∧ isJsonWs c = false ∧ c ≠ ']' ∧ c ≠ '}' := by
  cases v with
  | Null => exact ⟨'n', ['u', 'l', 'l'], by simp [printJson], by decide, by decide, by decide⟩
  | Boolean b =>
    cases b with
    | true =>
      exact ⟨'t', ['r', 'u', 'e'], by simp [printJson], by decide, by decide, by decide⟩
    | false =>
      exact ⟨'f', ['a', 'l', 's', 'e'], by simp [printJson], by decide, by decide, by decide⟩
  | Num n =>
    by_cases hneg : n < 0
    · refine ⟨'-', natDigits (-n).toNat, ?_, by decide, by decide, by decide⟩
      simp [printJson, printInt, hneg]
    · obtain ⟨c, t, hct, hlo, hhi, _⟩ := natDigits_head n.toNat
      obtain ⟨hws, _, _, _, _, _, _, _, hbr, hbc, _, _⟩ := digit_char_facts hlo hhi
      refine ⟨c, t, ?_, hws, hbr, hbc⟩
      simp [printJson, printInt, hneg, hct]
  | Str s =>
    exact ⟨'"', s.data.flatMap escapeChar ++ ['"'], by simp [printJson, printString],
      by decide, by decide, by decide⟩
  | Arr es =>
    exact ⟨'[', printElems es ++ [']'], by simp [printJson], by decide, by decide, by decide⟩
  | Obj ms =>
    exact ⟨'{', printMembers ms ++ ['}'], by simp [printJson], by decide, by decide,
      by decide⟩

/-- A nonempty printed element list starts like its first printed value. -/
theorem printElems_head (e : Json) (es : List Json) :
    ∃ c t, printElems (e :: es) = c :: t ∧ isJsonWs c = false ∧ c ≠ ']' ∧ c ≠ '}' := by
  obtain ⟨c, t, hct, hws, h1, h2⟩ := printJson_head e
  cases es with
  | nil => exact ⟨c, t, by simp [printElems, hct], hws, h1, h2⟩
  | cons e2 es2 =>
    exact ⟨c, t ++ ',' :: printElems (e2 :: es2), by simp [printElems, hct], hws, h1, h2⟩

/-! ### Numbers round-trip through the value parser -/

/-- The value parser inverts `printInt` whenever the remainder cannot extend
the digit run. -/
theorem parseValue_printInt (n : Int) (fuel : Nat) (rest : List Char)
    (hrest : noDigitHead rest = true) :
    parseValue (fuel + 1) (printInt n ++ rest) = some (.Num n, rest) := by
  by_cases hneg : n < 0
  · have hbody := parseNumBody_natDigits (-n).toNat hrest
    have hn : (((-n).toNat : Nat) : Int) = -n := Int.toNat_of_nonneg (by omega)
    simp only [printInt, if_pos hneg, List.cons_append]
    simp [parseValue, skipWs, isJsonWs, hbody, hn]
  · obtain ⟨c, t, hct, hlo, hhi, _⟩ := natDigits_head n.toNat
    obtain ⟨hws, hcn, hcT, hcf, hcq, hcm, _, _, _, _, _, _⟩ := digit_char_facts hlo hhi
    have hbody := parseNumBody_natDigits n.toNat hrest
    rw [hct, List.cons_append] at hbody
    have hnn : ((n.toNat : Nat) : Int) = n := Int.toNat_of_nonneg (by omega)
    rw [show printInt n = natDigits n.toNat from by simp [printInt, hneg], hct,
      List.cons_append]
    simp only [parseValue]
    rw [skipWs_cons_of_not_ws _ hws]
    simp [hcn, hcT, hcf, hcq, hcm, hlo, hhi, hbody, hnn]

/-- A string built back from its own character data is itself. -/
theorem string_mk_data (s : String) : (⟨s.data⟩ : String) = s := rfl

/-- A nonempty printed member list starts with the key's opening quote. -/
theorem printMembers_head (k : String) (v : Json) (ms : List (String × Json)) :
    ∃ t, printMembers ((k, v) :: ms) = '"' :: t := by
  cases ms with
  | nil =>
    exact ⟨k.data.flatMap escapeChar ++ '"' :: ':' :: printJson v,
      by simp [printMembers, printString]⟩
  | cons m2 ms2 =>
    exact ⟨k.data.flatMap escapeChar
        ++ '"' :: ':' :: (printJson v ++ ',' :: printMembers (m2 :: ms2)),
      by simp [printMembers, printString]⟩

/-! ### The codec round trip -/

mutual
/-- Parsing a printed value recovers it exactly, for any remainder that
cannot extend a digit run and any fuel above the value's node count. -/
theorem parseValue_printJson : ∀ (v : Json) (fuel : Nat) (rest : List Char),
    sizeJ v < fuel → noDigitHead rest = true →
    parseValue fuel (printJson v ++ rest) = some (v, rest)
  | .Null, fuel, rest => by
    intro hf hrest
    cases fuel with
    | zero => simp [sizeJ] at hf
    | succ f => simp [printJson, parseValue, skipWs, isJsonWs]
  | .Boolean b, fuel, rest => by
    intro hf hrest
    cases fuel with
    | zero => simp [sizeJ] at hf
    | succ f => cases b <;> simp [printJson, parseValue, skipWs, isJsonWs]
  | .Num n, fuel, rest => by
    intro hf hrest
    cases fuel with
    | zero => simp [sizeJ] at hf
    | succ f =>
      simp only [printJson]
      exact parseValue_printInt n f rest hrest
  | .Str s, fuel, rest => by
    intro hf hrest
    cases fuel with
    | zero => simp [sizeJ] at hf
    | succ f =>
      have hsb := parseStringBody_flatMap_self s.data rest
      simp at hsb
      rw [show printJson (.Str s) ++ rest
          = '"' :: (s.data.flatMap escapeChar ++ '"' :: rest) from by
        simp [printJson, printString]]
      simp only [parseValue]
      rw [skipWs_cons_of_not_ws _ (by decide)]
      simp [hsb, string_mk_data]
  | .Arr [], fuel, rest => by
    intro hf hrest
    cases fuel with
    | zero => simp [sizeJ, sizeElems] at hf
    | succ f => simp [printJson, printElems, parseValue, skipWs, isJsonWs]
  | .Arr (e :: es), fuel, rest => by
    intro hf hrest
    cases fuel with
    | zero => simp [sizeJ] at hf
    | succ f =>
      obtain ⟨c, t, hct, hws, hbr, _⟩ := printElems_head e es
      have hsz : sizeElems (e :: es) < f := by
        simp only [sizeJ] at hf
        omega
      have helems := parseElems_printElems e es f rest hsz
      rw [hct, List.cons_append] at helems
      rw [show printJson (.Arr (e :: es)) ++ rest = '[' :: (c :: (t ++ ']' :: rest)) from by
        simp [printJson, hct]]
      simp only [parseValue]
      rw [skipWs_cons_of_not_ws _ (by decide)]
      simp [skipWs_cons_of_not_ws, hws, hbr, helems]
  | .Obj [], fuel, rest => by
    intro hf hrest
    cases fuel with
    | zero => simp [sizeJ, sizeMembers] at hf
    | succ f => simp [printJson, printMembers, parseValue, skipWs, isJsonWs]
  | .Obj ((k, v) :: ms), fuel, rest => by
    intro hf hrest
    cases fuel with
    | zero => simp [sizeJ] at hf
    | succ f =>
      obtain ⟨t0, hpm⟩ := printMembers_head k v ms
      have hsz : sizeMembers ((k, v) :: ms) < f := by
        simp only [sizeJ] at hf
        omega
      have hmem := parseMembers_printMembers k v ms f rest hsz
      rw [hpm, List.cons_append] at hmem
      rw [show printJson (.Obj ((k, v) :: ms)) ++ rest
          = '{' :: ('"' :: (t0 ++ '}' :: rest)) from by
        simp [printJson, hpm]]
      simp only [parseValue]
      rw [skipWs_cons_of_not_ws _ (by decide)]
      have hqws : isJsonWs '"' = false := by decide
      simp [skipWs_cons_of_not_ws, hqws, hmem]
termination_by v fuel rest => sizeOf v
/-- Parsing a printed nonempty element list through its closing `]`. -/
theorem parseElems_printElems : ∀ (e : Json) (es : List Json) (fuel : Nat)
    (rest : List Char), sizeElems (e :: es) < fuel →
    parseElems fuel (printElems (e :: es) ++ ']' :: rest) = some (e :: es, rest)
  | e, [], fuel, rest => by
    intro hsz
    cases fuel with
    | zero => simp [sizeElems] at hsz
    | succ f =>
      have h1 : sizeJ e < f := by
        simp only [sizeElems, sizeElems] at hsz
        omega
      have hv := parseValue_printJson e f (']' :: rest) h1 (by simp [noDigitHead])
      simp only [printElems]
      simp [parseElems, hv, skipWs, isJsonWs]
  | e, e2 :: es, fuel, rest => by
    intro hsz
    cases fuel with
    | zero => simp [sizeElems] at hsz
    | succ f =>
      have h1 : sizeJ e < f := by
        simp only [sizeElems] at hsz
        omega
      have h2 : sizeElems (e2 :: es) < f := by
        simp only [sizeElems] at hsz ⊢
        omega
      have hv := parseValue_printJson e f (',' :: (printElems (e2 :: es) ++ ']' :: rest))
        h1 (by simp [noDigitHead])
      have hrec := parseElems_printElems e2 es f rest h2
      simp only [printElems, List.append_assoc, List.cons_append]
      simp [parseElems, hv, hrec, skipWs, isJsonWs]
termination_by e es fuel rest => sizeOf e + sizeOf es
/-- Parsing a printed nonempty member list through its closing `}`. -/
theorem parseMembers_printMembers : ∀ (k : String) (v : Json)
    (ms : List (String × Json)) (fuel : Nat) (rest : List Char),
    sizeMembers ((k, v) :: ms) < fuel →
    parseMembers fuel (printMembers ((k, v) :: ms) ++ '}' :: rest)
      = some ((k, v) :: ms, rest)
  | k, v, [], fuel, rest => by
    intro hsz
    cases fuel with
    | zero => simp [sizeMembers] at hsz
    | succ f =>
      have h1 : sizeJ v < f := by
        simp only [sizeMembers] at hsz
        omega
      have hv := parseValue_printJson v f ('}' :: rest) h1 (by simp [noDigitHead])
      have hsb := parseStringBody_flatMap_self k.data (':' :: (printJson v ++ '}' :: rest))
      simp at hsb
      rw [show printMembers [(k, v)] ++ '}' :: rest
          = '"' :: (k.data.flatMap escapeChar
              ++ '"' :: (':' :: (printJson v ++ '}' :: rest))) from by
        simp [printMembers, printString]]
      simp only [parseMembers]
      rw [skipWs_cons_of_not_ws _ (by decide)]
      simp [hsb, hv, skipWs, isJsonWs, string_mk_data]
  | k, v, (k2, v2) :: ms, fuel, rest => by
    intro hsz
    cases fuel with
    | zero => simp [sizeMembers] at hsz
    | succ f =>
      have h1 : sizeJ v < f := by
        simp only [sizeMembers] at hsz
        omega
      have h2 : sizeMembers ((k2, v2) :: ms) < f := by
        simp only [sizeMembers] at hsz ⊢
        omega
      have hv := parseValue_printJson v f
        (',' :: (printMembers ((k2, v2) :: ms) ++ '}' :: rest)) h1 (by simp [noDigitHead])
      have hrec := parseMembers_printMembers k2 v2 ms f rest h2
      have hsb := parseStringBody_flatMap_self k.data
        (':' :: (printJson v ++ ',' :: (printMembers ((k2, v2) :: ms) ++ '}' :: rest)))
      simp at hsb
      rw [show printMembers ((k, v) :: (k2, v2) :: ms) ++ '}' :: rest
          = '"' :: (k.data.flatMap escapeChar ++ '"' :: (':' :: (printJson v
              ++ ',' :: (printMembers ((k2, v2) :: ms) ++ '}' :: rest)))) from by
        simp [printMembers, printString]]
      simp only [parseMembers]
      rw [skipWs_cons_of_not_ws _ (by decide)]
      simp [hsb, hv, hrec, skipWs, isJsonWs, string_mk_data]
termination_by k v ms fuel rest => sizeOf v + sizeOf ms
end

/-! ### The whole-document round trip -/

/-- Parsing inverts printing with the JSON Lines newline attached. -/
theorem from_str_to_string_newline (v : Json) :
    from_str ⟨printJson v ++ ['\n']⟩ = some v := by
  have hsz : sizeJ v < (printJson v ++ ['\n']).length + 1 := by
    have h := sizeJ_le_length v
    simp only [List.length_append, List.length_singleton]
    omega
  have hp := parseValue_printJson v ((printJson v ++ ['\n']).length + 1) ['\n'] hsz
    (by simp [noDigitHead])
  unfold from_str
  rw [show (⟨printJson v ++ ['\n']⟩ : String).data = printJson v ++ ['\n'] from rfl, hp]
  simp [skipWs, isJsonWs]

/-! ### Line framing -/

/-- Splitting takes exactly the first newline-terminated line. -/
theorem splitLine_append {l : List Char} (r : List Char) (h : '\n' ∉ l) :
    splitLine (l ++ '\n' :: r) = (l ++ ['\n'], r) := by
  induction l with
  | nil => simp [splitLine]
  | cons c l ih =>
    have hc : c ≠ '\n' := fun e => h (e ▸ List.mem_cons_self c l)
    simp [splitLine, hc, ih (fun hm => h (List.mem_cons_of_mem c hm))]

/-- With no newline present, `splitLine` takes the whole input. -/
theorem splitLine_no_newline {l : List Char} (h : '\n' ∉ l) : splitLine l = (l, []) := by
  induction l with
  | nil => rfl
  | cons c l ih =>
    have hc : c ≠ '\n' := fun e => h (e ▸ List.mem_cons_self c l)
    simp [splitLine, hc, ih (fun hm => h (List.mem_cons_of_mem c hm))]

/-! ### Behaviour of `send_message` on a reliable sink -/

/-- On a sink with no pending failures, `send_message` succeeds and appends
exactly the JSON text and the newline, as two writes. -/
theorem send_message_ok (v : Json) (src : Source) (log : List SinkOp) :
    send_message encJson ⟨src, ⟨log, []⟩⟩ v
      = (⟨src, ⟨log ++ [.write (printJson v), .write ['\n']], []⟩⟩, .ok ()) := by
  simp [send_message, encJson, write_all, Sink.nextFails, to_string]

/-! ### The claims -/

/-- C1: round trip. Sending any value `v` to an in-memory sink succeeds, and
receiving from a source fed exactly the bytes that sink received returns
`Ok(v)`: `decode(encode(v) + "\n") = v`. -/
theorem c1_round_trip (v : Json) :
    (send_message encJson ⟨⟨[], false⟩, ⟨[], []⟩⟩ v).2 = .ok () ∧
    (recv_message decJson
      ⟨⟨Sink.written (send_message encJson ⟨⟨[], false⟩, ⟨[], []⟩⟩ v).1.sink, false⟩,
        ⟨[], []⟩⟩).2 = .ok v := by
  rw [send_message_ok v ⟨[], false⟩ []]
  have hwr : Sink.written ⟨[.write (printJson v), .write ['\n']], []⟩
      = printJson v ++ ['\n'] := by
    simp [Sink.written]
  have hsplit := splitLine_append ([]) (newline_not_mem_printJson v)
  refine ⟨rfl, ?_⟩
  simp only [List.nil_append, hwr]
  simp [recv_message, read_line, hsplit, decJson, from_str_to_string_newline]

/-- C2: framing invariant. `send(v1); send(v2)` to one sink, then
`receive(); receive()` on a source fed that exact byte sequence, yields
`v1` then `v2`, with no byte of one message attributed to the other. -/
theorem c2_framing (v1 v2 : Json) :
    (send_message encJson (send_message encJson ⟨⟨[], false⟩, ⟨[], []⟩⟩ v1).1 v2).2
        = .ok () ∧
    (recv_message decJson
      ⟨⟨Sink.written
          (send_message encJson (send_message encJson ⟨⟨[], false⟩, ⟨[], []⟩⟩ v1).1
            v2).1.sink, false⟩, ⟨[], []⟩⟩).2 = .ok v1 ∧
    (recv_message decJson
      (recv_message decJson
        ⟨⟨Sink.written
            (send_message encJson (send_message encJson ⟨⟨[], false⟩, ⟨[], []⟩⟩ v1).1
              v2).1.sink, false⟩, ⟨[], []⟩⟩).1).2 = .ok v2 := by
  rw [send_message_ok v1 ⟨[], false⟩ [], send_message_ok v2 ⟨[], false⟩ _]
  have hwr : Sink.written
      ⟨[] ++ [SinkOp.write (printJson v1), SinkOp.write ['\n']]
        ++ [SinkOp.write (printJson v2), SinkOp.write ['\n']], []⟩
      = printJson v1 ++ '\n' :: (printJson v2 ++ ['\n']) := by
    simp [Sink.written]
  have hsplit1 := splitLine_append (printJson v2 ++ ['\n'])
    (newline_not_mem_printJson v1)
  have hsplit2 := splitLine_append ([]) (newline_not_mem_printJson v2)
  refine ⟨rfl, ?_, ?_⟩
  · simp only [hwr]
    simp [recv_message, read_line, hsplit1, decJson, from_str_to_string_newline]
  · simp only [hwr]
    simp [recv_message, read_line, hsplit1, hsplit2, decJson, from_str_to_string_newline]

/-- C3: newline discipline. Every successful `send_message` appends to the
sink exactly the JSON text of the value and then exactly one newline byte,
and that JSON text contains no raw newline (the encoder escapes control
characters). -/
theorem c3_newline_discipline (c : Connection) (v : Json)
    (h : (send_message encJson c v).2 = .ok ()) :
    (send_message encJson c v).1.sink.log
        = c.sink.log ++ [.write (printJson v), .write ['\n']] ∧
    '\n' ∉ printJson v := by
  refine ⟨?_, newline_not_mem_printJson v⟩
  obtain ⟨src, log, mask⟩ := c
  match mask with
  | [] => simp [send_message, encJson, write_all, Sink.nextFails, to_string]
  | true :: m =>
    exact absurd h (by simp [send_message, encJson, write_all, Sink.nextFails])
  | false :: [] =>
    simp [send_message, encJson, write_all, Sink.nextFails, to_string]
  | false :: true :: m =>
    exact absurd h (by simp [send_message, encJson, write_all, Sink.nextFails])
  | false :: false :: m =>
    simp [send_message, encJson, write_all, Sink.nextFails, to_string]

/-- Witness for C3 at a concrete connection and value. -/
theorem c3_witness :
    (send_message encJson ⟨⟨[], false⟩, ⟨[], []⟩⟩ Json.Null).2 = .ok () ∧
    (send_message encJson ⟨⟨[], false⟩, ⟨[], []⟩⟩ Json.Null).1.sink.log
        = [] ++ [.write (printJson Json.Null), .write ['\n']] ∧
    '\n' ∉ printJson Json.Null :=
  ⟨by simp [send_message, encJson, write_all, Sink.nextFails],
    c3_newline_discipline ⟨⟨[], false⟩, ⟨[], []⟩⟩ Json.Null
      (by simp [send_message, encJson, write_all, Sink.nextFails])⟩

/-- C4: receive-side error classification. `recv_message` returns the `Read`
variant exactly when the underlying read fails; when the line is read but
does not decode (invalid JSON or wrong shape for `T`), it returns the
`Deserialize` variant, and it cannot panic or loop (it is a total
function). -/
theorem c4_recv_error_classification {α : Type} (dec : String → Option α)
    (c : Connection) :
    ((recv_message dec c).2 = .error (.Read .mk) ↔ c.source.readErr = true) ∧
    (c.source.readErr = false →
      dec ⟨(splitLine c.source.data).1⟩ = none →
      (recv_message dec c).2 = .error (.Deserialize .mk)) := by
  cases hre : c.source.readErr with
  | true =>
    refine ⟨by simp [recv_message, read_line, hre], ?_⟩
    intro h1
    exact absurd h1 (by simp)
  | false =>
    cases hdec : dec ⟨(splitLine c.source.data).1⟩ with
    | none =>
      refine ⟨by simp [recv_message, read_line, hre, hdec], ?_⟩
      intro _ _
      simp [recv_message, read_line, hre, hdec]
    | some v =>
      refine ⟨by simp [recv_message, read_line, hre, hdec], ?_⟩
      intro _ h2
      exact absurd h2 (by simp)

/-- Witness for C4: the line `{not valid json` yields a `Deserialize`
failure, not a `Read` failure. -/
theorem c4_witness :
    (recv_message decJson
      ⟨⟨['\x7b', 'n', 'o', 't', ' ', 'v', 'a', 'l', 'i', 'd', ' ', 'j', 's', 'o', 'n',
          '\n'], false⟩, ⟨[], []⟩⟩).2 = .error (.Deserialize .mk) :=
  (c4_recv_error_classification decJson
    ⟨⟨['\x7b', 'n', 'o', 't', ' ', 'v', 'a', 'l', 'i', 'd', ' ', 'j', 's', 'o', 'n',
        '\n'], false⟩, ⟨[], []⟩⟩).2 rfl rfl

/-- C5: a bare newline decodes to a `Deserialize` failure (empty text is not
valid JSON), and an exhausted source (empty read at end of stream) likewise
surfaces as a `Deserialize` failure on an empty buffer — not as a `Read`
failure and not as a distinct end-of-stream signal. -/
theorem c5_empty_line_and_eof (sk : Sink) (rest : List Char) :
    (recv_message decJson ⟨⟨'\n' :: rest, false⟩, sk⟩).2
        = .error (.Deserialize .mk) ∧
    (recv_message decJson ⟨⟨[], false⟩, sk⟩).2 = .error (.Deserialize .mk) := by
  have h1 : decJson ⟨['\n']⟩ = none := rfl
  have h2 : decJson ⟨[]⟩ = none := rfl
  constructor
  · simp [recv_message, read_line, splitLine, h1]
  · simp [recv_message, read_line, splitLine, h2]

/-- C6: send-side error classification. `send_message` returns `Serialize`
when the value cannot be serialized, `Write` when either of the two
underlying writes fails, and `Ok(())` exactly when serialization and both
writes complete. -/
theorem c6_send_error_classification {α : Type} (enc : α → Option String)
    (c : Connection) (t : α) :
    (enc t = none → (send_message enc c t).2 = .error (.Serialize .mk)) ∧
    (∀ j, enc t = some j →
      (c.sink.nextFails = true → (send_message enc c t).2 = .error (.Write .mk)) ∧
      (c.sink.nextFails = false → c.sink.failMask.tail.headD false = true →
        (send_message enc c t).2 = .error (.Write .mk))) ∧
    ((send_message enc c t).2 = .ok () ↔
      enc t ≠ none ∧ c.sink.nextFails = false
        ∧ c.sink.failMask.tail.headD false = false) := by
  obtain ⟨src, log, mask⟩ := c
  cases henc : enc t with
  | none =>
    refine ⟨fun _ => by simp [send_message, henc], fun j hj => by simp [henc] at hj, ?_⟩
    simp [send_message, henc]
  | some j =>
    match mask with
    | [] =>
      refine ⟨fun h => by simp [henc] at h,
        fun j2 _ => ⟨fun hcontra => by simp [Sink.nextFails] at hcontra,
          fun _ hcontra => by simp at hcontra⟩, ?_⟩
      simp [send_message, henc, write_all, Sink.nextFails]
    | true :: m =>
      refine ⟨fun h => by simp [henc] at h,
        fun j2 _ => ⟨fun _ => by simp [send_message, henc, write_all, Sink.nextFails],
          fun hcontra _ => by simp [Sink.nextFails] at hcontra⟩, ?_⟩
      simp [send_message, henc, write_all, Sink.nextFails]
    | false :: [] =>
      refine ⟨fun h => by simp [henc] at h,
        fun j2 _ => ⟨fun hcontra => by simp [Sink.nextFails] at hcontra,
          fun _ hcontra => by simp at hcontra⟩, ?_⟩
      simp [send_message, henc, write_all, Sink.nextFails]
    | false :: true :: m =>
      refine ⟨fun j2 => by simp [henc] at j2,
        fun j2 _ => ⟨fun hcontra => by simp [Sink.nextFails] at hcontra,
          fun _ _ => by simp [send_message, henc, write_all, Sink.nextFails]⟩, ?_⟩
      simp [send_message, henc, write_all, Sink.nextFails]
    | false :: false :: m =>
      refine ⟨fun j2 => by simp [henc] at j2,
        fun j2 _ => ⟨fun hcontra => by simp [Sink.nextFails] at hcontra,
          fun _ hcontra => by simp at hcontra⟩, ?_⟩
      simp [send_message, henc, write_all, Sink.nextFails]

/-- Witness for C6: a failing serializer yields `Serialize`, a failing first
write yields `Write`, and a reliable sink yields `Ok`. -/
theorem c6_witness :
    (send_message (fun _ : Json => none) ⟨⟨[], false⟩, ⟨[], []⟩⟩ Json.Null).2
        = .error (.Serialize .mk) ∧
    (send_message encJson ⟨⟨[], false⟩, ⟨[], [true]⟩⟩ Json.Null).2
        = .error (.Write .mk) ∧
    (send_message encJson ⟨⟨[], false⟩, ⟨[], []⟩⟩ Json.Null).2 = .ok () :=
  ⟨(c6_send_error_classification (fun _ : Json => none) ⟨⟨[], false⟩, ⟨[], []⟩⟩
      Json.Null).1 rfl,
    ((c6_send_error_classification encJson ⟨⟨[], false⟩, ⟨[], [true]⟩⟩ Json.Null).2.1
      (to_string Json.Null) rfl).1 rfl,
    (c6_send_error_classification encJson ⟨⟨[], false⟩, ⟨[], []⟩⟩ Json.Null).2.2.mpr
      ⟨by simp [encJson], rfl, rfl⟩⟩

/-- C7: flushing separation. `send_message` never performs a flush (every
operation it appends to the sink log is a write), and `Connection.flush`
delegates verbatim to the sink's own flush, performing no write and not
touching the source. -/
theorem c7_flush_separation {α : Type} (enc : α → Option String) (c : Connection)
    (t : α) :
    (∃ ws : List SinkOp, (send_message enc c t).1.sink.log = c.sink.log ++ ws ∧
      ∀ op ∈ ws, op ≠ SinkOp.flush) ∧
    (Connection.flush c).1.sink = (Sink.flush c.sink).1 ∧
    (Connection.flush c).2 = (Sink.flush c.sink).2 ∧
    (Connection.flush c).1.source = c.source ∧
    (∀ op ∈ (Connection.flush c).1.sink.log, op ∈ c.sink.log ∨ op = SinkOp.flush) := by
  obtain ⟨src, log, mask⟩ := c
  refine ⟨?_, by simp [Connection.flush], by simp [Connection.flush],
    by simp [Connection.flush], ?_⟩
  · cases henc : enc t with
    | none => exact ⟨[], by simp [send_message, henc], by simp⟩
    | some j =>
      match mask with
      | [] =>
        refine ⟨[.write j.data, .write ['\n']],
          by simp [send_message, henc, write_all, Sink.nextFails], ?_⟩
        intro op hop
        rcases List.mem_cons.mp hop with h | h
        · subst h; simp
        · rw [List.mem_singleton] at h; subst h; simp
      | true :: m =>
        exact ⟨[], by simp [send_message, henc, write_all, Sink.nextFails], by simp⟩
      | false :: [] =>
        refine ⟨[.write j.data, .write ['\n']],
          by simp [send_message, henc, write_all, Sink.nextFails], ?_⟩
        intro op hop
        rcases List.mem_cons.mp hop with h | h
        · subst h; simp
        · rw [List.mem_singleton] at h; subst h; simp
      | false :: true :: m =>
        refine ⟨[.write j.data],
          by simp [send_message, henc, write_all, Sink.nextFails], ?_⟩
        intro op hop
        rw [List.mem_singleton] at hop
        subst hop
        simp
      | false :: false :: m =>
        refine ⟨[.write j.data, .write ['\n']],
          by simp [send_message, henc, write_all, Sink.nextFails], ?_⟩
        intro op hop
        rcases List.mem_cons.mp hop with h | h
        · subst h; simp
        · rw [List.mem_singleton] at h; subst h; simp
  · match mask with
    | [] =>
      intro op hop
      simp [Connection.flush, Sink.flush, Sink.nextFails] at hop
      exact hop
    | true :: m =>
      intro op hop
      simp [Connection.flush, Sink.flush, Sink.nextFails] at hop
      exact Or.inl hop
    | false :: m =>
      intro op hop
      simp [Connection.flush, Sink.flush, Sink.nextFails] at hop
      exact hop

/-- Witness for C7 at a concrete connection. -/
theorem c7_witness :
    (Connection.flush ⟨⟨[], false⟩, ⟨[], []⟩⟩).1.sink
      = (Sink.flush (⟨[], []⟩ : Sink)).1 :=
  (c7_flush_separation encJson ⟨⟨[], false⟩, ⟨[], []⟩⟩ Json.Null).2.1

/-- C8: stream truncation. When the stream ends with no trailing newline,
`recv_message` takes the whole partial text as the one line, and the
outcome is exactly the outcome of decoding that partial text: success iff
it parses as the target type, `Deserialize` failure otherwise. -/
theorem c8_truncation {α : Type} (dec : String → Option α) (data : List Char)
    (sk : Sink) (h : '\n' ∉ data) :
    ((recv_message dec ⟨⟨data, false⟩, sk⟩).2
        = (match dec ⟨data⟩ with
           | some v => Except.ok v
           | none => Except.error (.Deserialize .mk))) ∧
    (∀ v : α, (recv_message dec ⟨⟨data, false⟩, sk⟩).2 = .ok v ↔ dec ⟨data⟩ = some v) := by
  have hs := splitLine_no_newline h
  constructor
  · cases hdec : dec ⟨data⟩ with
    | none => simp [recv_message, read_line, hs, hdec]
    | some v => simp [recv_message, read_line, hs, hdec]
  · intro v
    cases hdec : dec ⟨data⟩ with
    | none => simp [recv_message, read_line, hs, hdec]
    | some w => simp [recv_message, read_line, hs, hdec]

/-- Witness for C8: the truncated line `12` still decodes on its own merits. -/
theorem c8_witness :
    '\n' ∉ ['1', '2'] ∧
    (recv_message decJson ⟨⟨['1', '2'], false⟩, ⟨[], []⟩⟩).2
      = (match decJson ⟨['1', '2']⟩ with
         | some v => Except.ok v
         | none => Except.error (.Deserialize .mk)) :=
  ⟨by decide, (c8_truncation decJson ['1', '2'] ⟨[], []⟩ (by decide)).1⟩

/-- C9: atomicity of send on encode failure. When serialization fails,
`send_message` returns `Serialize` and the connection — in particular the
sink — is completely unchanged. -/
theorem c9_serialize_failure_writes_nothing {α : Type} (enc : α → Option String)
    (c : Connection) (t : α) (h : enc t = none) :
    send_message enc c t = (c, .error (.Serialize .mk)) := by
  simp [send_message, h]

/-- Witness for C9 with an always-failing serializer. -/
theorem c9_witness :
    send_message (fun _ : Json => none) ⟨⟨[], false⟩, ⟨[], []⟩⟩ Json.Null
      = (⟨⟨[], false⟩, ⟨[], []⟩⟩, .error (.Serialize .mk)) :=
  c9_serialize_failure_writes_nothing (fun _ : Json => none) ⟨⟨[], false⟩, ⟨[], []⟩⟩
    Json.Null rfl

/-- C10: the bad line is consumed. On a `Deserialize` failure the source has
already advanced past the whole offending line, so the very next
`recv_message` behaves exactly as on a source holding only the following
lines. -/
theorem c10_bad_line_consumed {α : Type} (dec : String → Option α)
    (line1 rest : List Char) (sk : Sink) (h1 : '\n' ∉ line1)
    (h2 : dec ⟨line1 ++ ['\n']⟩ = none) :
    recv_message dec ⟨⟨line1 ++ '\n' :: rest, false⟩, sk⟩
        = (⟨⟨rest, false⟩, sk⟩, .error (.Deserialize .mk)) ∧
    recv_message dec (recv_message dec ⟨⟨line1 ++ '\n' :: rest, false⟩, sk⟩).1
        = recv_message dec ⟨⟨rest, false⟩, sk⟩ := by
  have hmain : recv_message dec ⟨⟨line1 ++ '\n' :: rest, false⟩, sk⟩
      = (⟨⟨rest, false⟩, sk⟩, .error (.Deserialize .mk)) := by
    simp [recv_message, read_line, splitLine_append rest h1, h2]
  exact ⟨hmain, by rw [hmain]⟩

/-- Witness for C10: the bad line `x` is consumed, leaving the source at the
following line. -/
theorem c10_witness :
    '\n' ∉ ['x'] ∧
    recv_message decJson ⟨⟨['x', '\n', 'y'], false⟩, ⟨[], []⟩⟩
      = (⟨⟨['y'], false⟩, ⟨[], []⟩⟩, .error (.Deserialize .mk)) :=
  ⟨by decide, (c10_bad_line_consumed decJson ['x'] ['y'] ⟨[], []⟩ (by decide) rfl).1⟩

end Jsonl
